import Mathlib

/-
Verification of the hippo memory-index engine and its Python client
(src/hippo-web/examples/client.py).  The repository ships only the thin
HTTP client; the engine itself (Memory Store, Tag Store, Source Manager,
Search Engine) is specified in spec.md but its code is not in the
repository, so the engine definitions below are modelled from the spec
(each such definition says so in its doc comment).  The client-side
definitions (request-parameter construction, base-url normalization) are
translated directly from client.py.
-/

namespace Hippo

/-- Boolean membership in a list, used throughout instead of BEq-based
containment so that proofs and kernel evaluation stay elementary. -/
def bmem {α : Type} [DecidableEq α] (a : α) (l : List α) : Bool :=
  l.any (fun x => decide (x = a))

/-- Modelled from the spec: the Memory kind enum (Image, Video, Audio,
Code, Document, Other), section 3 of spec.md. -/
inductive Kind where
  | image
  | video
  | audio
  | code
  | document
  | other
deriving DecidableEq

/-- Modelled from the spec: a Memory record of the Memory Store —
stable id, path, owning source, kind, size, content-modification
timestamp, indexed-at timestamp, extracted text, and its set of tag
names (section 3 of spec.md; the tag association lives with the memory,
the Tag Store additionally keeps the global counts). -/
structure Memory where
  id : Nat
  path : String
  source : String
  kind : Kind
  size : Nat
  modified : Nat
  indexedAt : Nat
  text : String
  tags : List String
deriving DecidableEq

/-- Modelled from the spec: a derived, rebuildable Index Entry of the
Search Engine — per memory a set of searchable tokens, its tag set,
kind, and sortable fields (section 3 of spec.md). -/
structure IndexEntry where
  memId : Nat
  tokens : List String
  tags : List String
  kind : Kind
  size : Nat
  indexedAt : Nat
  name : String
deriving DecidableEq

/-- Last path component, used as the display name for name sorting. -/
def nameOf (path : String) : String :=
  (path.splitOn "/").getLastD path

/-- Modelled from the spec: searchable tokens derived from path and
text metadata (section 3 of spec.md). -/
def tokensOf (m : Memory) : List String :=
  (m.path.splitOn "/") ++ (m.text.splitOn " ")

/-- Modelled from the spec: the index entry derived from a memory. -/
def entryOf (m : Memory) : IndexEntry :=
  ⟨m.id, tokensOf m, m.tags, m.kind, m.size, m.indexedAt, nameOf m.path⟩

/-- Modelled from the spec: full index rebuild from the stored
memories (section 4.5 of spec.md). -/
def rebuild (ms : List Memory) : List IndexEntry :=
  ms.map entryOf

/-- Modelled from the spec: sort modes of the query engine. -/
inductive SortMode where
  | relevance
  | dateNewest
  | dateOldest
  | nameAsc
  | nameDesc
  | sizeAsc
  | sizeDesc
deriving DecidableEq

/-- Modelled from the spec: a search query — optional text, raw tag
filter entries (leading minus marks an exclusion), optional kind,
sort mode and pagination window (section 4.5 of spec.md). -/
structure Query where
  text : Option String
  tags : List String
  kind : Option Kind
  sort : SortMode
  limit : Nat
  offset : Nat

/-- Lower-cased character list of a string, for case-insensitive
matching. -/
def lowerChars (s : String) : List Char :=
  s.data.map Char.toLower

/-- Does the second character list start with the first? -/
def startsChars : List Char → List Char → Bool
  | [], _ => true
  | _ :: _, [] => false
  | a :: q, b :: s => a = b && startsChars q s

/-- Is the first character list a contiguous part of the second? -/
def midChars (q : List Char) : List Char → Bool
  | [] => q.isEmpty
  | c :: s => startsChars q (c :: s) || midChars q s

/-- Modelled from the spec: case-insensitive substring match of the
query against one indexed token (section 4.5 of spec.md). -/
def tokenMatch (q tok : String) : Bool :=
  midChars (lowerChars q) (lowerChars tok)

/-- Modelled from the spec: the text filter — empty or absent text
matches everything, otherwise some indexed token must contain the
query case-insensitively (section 4.5 of spec.md). -/
def textMatches (t : Option String) (e : IndexEntry) : Bool :=
  match t with
  | none => true
  | some q => q.isEmpty || e.tokens.any (fun tok => tokenMatch q tok)

/-- Modelled from the spec: a tag filter entry with a literal leading
minus is an exclusion (section 4.5 of spec.md). -/
def isExclusion (t : String) : Bool :=
  match t.data with
  | [] => false
  | c :: _ => c = '-'

/-- Tag name of an exclusion entry: the entry without its leading
minus. -/
def exclName (t : String) : String :=
  ⟨t.data.drop 1⟩

/-- Inclusion entries of a tag filter. -/
def includesOf (tags : List String) : List String :=
  tags.filter (fun t => !isExclusion t)

/-- Exclusion entries of a tag filter, with the minus stripped. -/
def excludesOf (tags : List String) : List String :=
  (tags.filter isExclusion).map exclName

/-- Modelled from the spec: conjunctive tag filter — a result carries
all inclusion tags and none of the exclusion tags (section 4.5 of
spec.md). -/
def tagsMatch (tags : List String) (e : IndexEntry) : Bool :=
  (includesOf tags).all (fun t => bmem t e.tags) &&
  (excludesOf tags).all (fun t => !bmem t e.tags)

/-- Modelled from the spec: exact kind filter, absent means all
kinds. -/
def kindMatches (k : Option Kind) (e : IndexEntry) : Bool :=
  match k with
  | none => true
  | some k => decide (e.kind = k)

/-- Modelled from the spec: an entry matches a query when it passes
the text, tag and kind filters. -/
def entryMatches (q : Query) (e : IndexEntry) : Bool :=
  textMatches q.text e && tagsMatch q.tags e && kindMatches q.kind e

/-- Modelled from the spec: the full match set of a query over the
index, before sorting and pagination. -/
def matchSet (q : Query) (idx : List IndexEntry) : List IndexEntry :=
  idx.filter (entryMatches q)

/-- Modelled from the spec: relevance text-match strength as token
coverage — how many indexed tokens contain the query. -/
def relScore (t : Option String) (e : IndexEntry) : Nat :=
  match t with
  | none => 0
  | some q => (e.tokens.filter (fun tok => tokenMatch q tok)).length

/-- Lexicographic Boolean order on character lists by code point. -/
def charsLe : List Char → List Char → Bool
  | [], _ => true
  | _ :: _, [] => false
  | a :: as, b :: bs => if a = b then charsLe as bs else decide (a < b)

/-- Boolean order on strings, by their character lists. -/
def strLeB (a b : String) : Bool :=
  charsLe a.data b.data

/-- Modelled from the spec: the total order used for each sort mode —
a single field with the memory id as stable tie-break; relevance
combines token coverage and recency, ties broken by id (section 4.5 of
spec.md). -/
def cmpLe (q : Query) (a b : IndexEntry) : Bool :=
  match q.sort with
  | .relevance =>
    let sa := relScore q.text a
    let sb := relScore q.text b
    if sa = sb then
      if a.indexedAt = b.indexedAt then decide (a.memId ≤ b.memId)
      else decide (b.indexedAt < a.indexedAt)
    else decide (sb < sa)
  | .dateNewest =>
    if a.indexedAt = b.indexedAt then decide (a.memId ≤ b.memId)
    else decide (b.indexedAt < a.indexedAt)
  | .dateOldest =>
    if a.indexedAt = b.indexedAt then decide (a.memId ≤ b.memId)
    else decide (a.indexedAt < b.indexedAt)
  | .nameAsc =>
    if a.name = b.name then decide (a.memId ≤ b.memId)
    else strLeB a.name b.name
  | .nameDesc =>
    if a.name = b.name then decide (a.memId ≤ b.memId)
    else strLeB b.name a.name
  | .sizeAsc =>
    if a.size = b.size then decide (a.memId ≤ b.memId)
    else decide (a.size < b.size)
  | .sizeDesc =>
    if a.size = b.size then decide (a.memId ≤ b.memId)
    else decide (b.size < a.size)

/-- Ordered insertion for the stable sort below. -/
def insertLe {α : Type} (le : α → α → Bool) (a : α) : List α → List α
  | [] => [a]
  | b :: bs => if le a b then a :: b :: bs else b :: insertLe le a bs

/-- Insertion sort by a Boolean order. -/
def sortByLe {α : Type} (le : α → α → Bool) : List α → List α
  | [] => []
  | a :: as => insertLe le a (sortByLe le as)

/-- Modelled from the spec: a query result — the returned page and the
total count of matches before pagination (section 4.5 of spec.md). -/
structure QueryResult where
  page : List IndexEntry
  totalCount : Nat
deriving DecidableEq

/-- Modelled from the spec: query execution — filter, order totally by
the sort mode, then apply offset and limit; totalCount is the number of
matches before pagination (section 4.5 of spec.md). -/
def runQuery (q : Query) (idx : List IndexEntry) : QueryResult :=
  let ms := matchSet q idx
  let sorted := sortByLe (cmpLe q) ms
  ⟨(sorted.drop q.offset).take q.limit, ms.length⟩

/-- Modelled from the spec: the events the Search Engine consumes for
incremental index maintenance — memory upsert, memory removal, and the
tag delta reported by the Tag Store (sections 4.2 and 4.5 of
spec.md). -/
inductive EngOp where
  | upsert (m : Memory)
  | remove (id : Nat)
  | tagDelta (id : Nat) (tags : List String)

/-- Modelled from the spec: the Search Engine state — the Memory and
Tag Store contents of record (the memories, each carrying its tag set)
together with the incrementally maintained derived index. -/
structure EngineState where
  memories : List Memory
  index : List IndexEntry

/-- Insert-or-overwrite of a memory by id in the store. -/
def upsertMem (ms : List Memory) (m : Memory) : List Memory :=
  if ms.any (fun x => decide (x.id = m.id)) then
    ms.map (fun x => if x.id = m.id then m else x)
  else ms ++ [m]

/-- Insert-or-overwrite of an index entry by memory id. -/
def upsertEntry (ix : List IndexEntry) (e : IndexEntry) : List IndexEntry :=
  if ix.any (fun x => decide (x.memId = e.memId)) then
    ix.map (fun x => if x.memId = e.memId then e else x)
  else ix ++ [e]

/-- Modelled from the spec: one incremental maintenance step — each
event updates the store and the derived index in place, with no
rebuild (section 4.5 of spec.md). -/
def applyOp (s : EngineState) : EngOp → EngineState
  | .upsert m =>
    ⟨upsertMem s.memories m, upsertEntry s.index (entryOf m)⟩
  | .remove i =>
    ⟨s.memories.filter (fun m => !decide (m.id = i)),
     s.index.filter (fun e => !decide (e.memId = i))⟩
  | .tagDelta i ts =>
    ⟨s.memories.map (fun m => if m.id = i then { m with tags := ts } else m),
     s.index.map (fun e => if e.memId = i then { e with tags := ts } else e)⟩

/-- A whole event sequence applied incrementally. -/
def applyOps (ops : List EngOp) (s : EngineState) : EngineState :=
  ops.foldl applyOp s

/-- The empty engine state. -/
def initState : EngineState :=
  ⟨[], []⟩

/-- Modelled from the spec: the error taxonomy relevant to the claims
(section 7 of spec.md). -/
inductive HippoErr where
  | notFound
  | conflict
  | tagNotPresent
deriving DecidableEq

/-- Modelled from the spec: the persistent catalog — Memory Store
records (each memory carrying its tag set), the Tag Store global
counts, and the registered source paths. -/
structure Catalog where
  memories : List Memory
  tagCounts : List (String × Nat)
  sources : List String
deriving DecidableEq

/-- Modelled from the spec: tag names are case-normalized (section 3
of spec.md). -/
def normalizeTag (t : String) : String :=
  ⟨t.data.map Char.toLower⟩

/-- Memory lookup by id. -/
def findMem (cat : Catalog) (id : Nat) : Option Memory :=
  cat.memories.find? (fun m => decide (m.id = id))

/-- The tag set currently on a memory (empty if the memory is
absent). -/
def memTags (cat : Catalog) (id : Nat) : List String :=
  ((findMem cat id).map Memory.tags).getD []

/-- Count recorded for a tag name, none if no record exists. -/
def lookupCount (tc : List (String × Nat)) (t : String) : Option Nat :=
  ((tc.find? (fun p => decide (p.1 = t))).map Prod.snd)

/-- Increment the count of a tag, creating the record at 1 on first
use. -/
def incrCount (tc : List (String × Nat)) (t : String) : List (String × Nat) :=
  if tc.any (fun p => decide (p.1 = t)) then
    tc.map (fun p => if p.1 = t then (p.1, p.2 + 1) else p)
  else tc ++ [(t, 1)]

/-- Modelled from the spec: decrement the count of a tag and delete
the record when the count reaches zero (section 4.2 of spec.md). -/
def decrCount (tc : List (String × Nat)) (t : String) : List (String × Nat) :=
  tc.filterMap (fun p =>
    if p.1 = t then
      if p.2 ≤ 1 then none else some (p.1, p.2 - 1)
    else some p)

/-- Rewrite the tag set of the memory with the given id. -/
def updateMemTags (cat : Catalog) (id : Nat) (f : List String → List String) : Catalog :=
  { cat with
    memories := cat.memories.map (fun m =>
      if m.id = id then { m with tags := f m.tags } else m) }

/-- Modelled from the spec: add_tag — normalizes the tag name, fails
NotFound if the memory does not exist, is idempotent when the tag is
already present, and otherwise inserts the tag and increments its
global count (section 4.2 of spec.md). -/
def addTag (cat : Catalog) (id : Nat) (tag : String) : Except HippoErr Catalog :=
  let t := normalizeTag tag
  match findMem cat id with
  | none => .error .notFound
  | some m =>
    if bmem t m.tags then .ok cat
    else .ok { updateMemTags cat id (fun ts => ts ++ [t]) with
               tagCounts := incrCount cat.tagCounts t }

/-- Modelled from the spec: remove_tag — fails NotFound if the memory
does not exist, fails TagNotPresent if the memory does not carry the
tag, otherwise removes the tag, decrements its global count and
deletes the count record at zero (section 4.2 of spec.md). -/
def removeTag (cat : Catalog) (id : Nat) (tag : String) : Except HippoErr Catalog :=
  let t := normalizeTag tag
  match findMem cat id with
  | none => .error .notFound
  | some m =>
    if bmem t m.tags then
      .ok { updateMemTags cat id (fun ts => ts.filter (fun x => !decide (x = t))) with
            tagCounts := decrCount cat.tagCounts t }
    else .error .tagNotPresent

/-- A tag mutation on a fixed memory. -/
inductive TagOp where
  | add (t : String)
  | rem (t : String)

/-- One tag mutation applied to the catalog; a failing call leaves the
catalog unchanged. -/
def applyTagOp (cat : Catalog) (id : Nat) : TagOp → Catalog
  | .add t =>
    match addTag cat id t with
    | .ok c => c
    | .error _ => cat
  | .rem t =>
    match removeTag cat id t with
    | .ok c => c
    | .error _ => cat

/-- Replay of a sequence of tag mutations on one memory. -/
def replayTagOps (cat : Catalog) (id : Nat) (ops : List TagOp) : Catalog :=
  ops.foldl (fun c op => applyTagOp c id op) cat

/-- Does a tag mutation change the tag set of the memory at this
point?  Adds of an already-present tag, removes of an absent tag, and
mutations of a missing memory are not effective. -/
def isEffective (cat : Catalog) (id : Nat) : TagOp → Bool
  | .add t => (findMem cat id).isSome && !bmem (normalizeTag t) (memTags cat id)
  | .rem t => bmem (normalizeTag t) (memTags cat id)

/-- The net subsequence of a mutation sequence: only the mutations
that change the tag set at their point of application are kept. -/
def netOps (cat : Catalog) (id : Nat) : List TagOp → List TagOp
  | [] => []
  | op :: ops =>
    if isEffective cat id op then op :: netOps (applyTagOp cat id op) id ops
    else netOps cat id ops

/-- Ids of the memories owned by a source path. -/
def ownedIds (cat : Catalog) (path : String) : List Nat :=
  (cat.memories.filter (fun m => decide (m.source = path))).map Memory.id

/-- Remove one memory record by id; removing an absent id is a
no-op. -/
def removeMemById (cat : Catalog) (id : Nat) : Catalog :=
  { cat with memories := cat.memories.filter (fun m => !decide (m.id = id)) }

/-- Modelled from the spec: the individual steps of the remove_source
cascade — one removal per owned memory, then the removal of the Source
record itself, last (section 4.3 of spec.md). -/
inductive CascadeStep where
  | removeMem (id : Nat)
  | removeSrc (path : String)

/-- One cascade step applied to the catalog. -/
def applyStep (cat : Catalog) : CascadeStep → Catalog
  | .removeMem i => removeMemById cat i
  | .removeSrc p => { cat with sources := cat.sources.filter (fun s => !decide (s = p)) }

/-- Modelled from the spec: the step list of the remove_source
cascade; the Source record removal comes last so an interruption
leaves the source registered (section 4.3 of spec.md). -/
def cascadeSteps (cat : Catalog) (path : String) : List CascadeStep :=
  (ownedIds cat path).map CascadeStep.removeMem ++ [CascadeStep.removeSrc path]

/-- A list of cascade steps applied in order. -/
def applyCascade (cat : Catalog) (steps : List CascadeStep) : Catalog :=
  steps.foldl applyStep cat

/-- Modelled from the spec: remove_source — fails NotFound when the
path is not a registered source, otherwise runs the cascade.  The
optional best-effort deletion of the underlying files touches only the
filesystem, never the catalog, so the deleteFiles flag does not affect
the resulting catalog (section 4.3 of spec.md). -/
def removeSource (cat : Catalog) (path : String) (deleteFiles : Bool) : Except HippoErr Catalog :=
  if bmem path cat.sources then .ok (applyCascade cat (cascadeSteps cat path))
  else .error .notFound

/-- Modelled from the spec: the filesystem-derived facts about one
discovered file — path, classified kind, size, modification timestamp
(section 4.3 of spec.md). -/
structure FileInfo where
  path : String
  kind : Kind
  size : Nat
  modified : Nat
deriving DecidableEq

/-- Memory lookup by path. -/
def findByPath (cat : Catalog) (p : String) : Option Memory :=
  cat.memories.find? (fun m => decide (m.path = p))

/-- Is the stored memory up to date with the file on disk? -/
def fsUnchanged (m : Memory) (f : FileInfo) : Bool :=
  decide (m.size = f.size) && decide (m.modified = f.modified)

/-- A fresh id, larger than every id in the store. -/
def freshId (cat : Catalog) : Nat :=
  (cat.memories.map Memory.id).foldl max 0 + 1

/-- Modelled from the spec: ingestion of one discovered file — an
unchanged file is left alone (id, tags and indexedAt survive), a
changed file has only its filesystem-derived fields and indexedAt
refreshed, and an unknown path creates a fresh memory (section 4.3 of
spec.md). -/
def ingestFile (cat : Catalog) (src : String) (now : Nat) (f : FileInfo) : Catalog :=
  match findByPath cat f.path with
  | some m =>
    if fsUnchanged m f then cat
    else
      { cat with memories := cat.memories.map (fun x =>
          if x.path = f.path then
            { x with kind := f.kind, size := f.size, modified := f.modified, indexedAt := now }
          else x) }
  | none =>
    { cat with memories :=
        cat.memories ++ [⟨freshId cat, f.path, src, f.kind, f.size, f.modified, now, "", []⟩] }

/-- Modelled from the spec: an ingestion scan of one source — ingest
every discovered file, then the tombstone pass removes every memory of
this source whose path was not found on disk (section 4.3 of
spec.md). -/
def scanSource (cat : Catalog) (src : String) (now : Nat) (files : List FileInfo) : Catalog :=
  let c := files.foldl (fun c f => ingestFile c src now f) cat
  { c with memories := c.memories.filter (fun m =>
      !(decide (m.source = src) && !bmem m.path (files.map FileInfo.path))) }

/-- Python truthiness of an optional string argument: None and the
empty string are falsy (client.py, the if query / if kind guards). -/
def pyTruthyStr : Option String → Bool
  | none => false
  | some s => !s.isEmpty

/-- Python truthiness of an optional list argument: None and the empty
list are falsy (client.py, the if tags guard). -/
def pyTruthyList : Option (List String) → Bool
  | none => false
  | some l => !l.isEmpty

/-- The comma join applied to the tags argument in client.py. -/
def pyJoinComma (l : List String) : String :=
  String.intercalate "," l

/-- Request parameters built by HippoClient.search (client.py lines
58-69): limit, offset and sort always, then q, tags and type only when
the corresponding argument is truthy, in dict insertion order. -/
def searchParams (query : Option String) (tags : Option (List String)) (kind : Option String)
    (sort : String) (limit : Int) (offset : Int) : List (String × String) :=
  let ps := [("limit", toString limit), ("offset", toString offset), ("sort", sort)]
  let ps := if pyTruthyStr query then ps ++ [("q", query.getD "")] else ps
  let ps := if pyTruthyList tags then ps ++ [("tags", pyJoinComma (tags.getD []))] else ps
  if pyTruthyStr kind then ps ++ [("type", kind.getD "")] else ps

/-- The search call with the Python default arguments applied
(client.py lines 35-42: query=None, tags=None, kind=None,
sort=Relevance, limit=50, offset=0). -/
def searchParamsDefault : List (String × String) :=
  searchParams none none none "Relevance" 50 0

/-- Python rstrip restricted to the slash character, on a character
list: drop every trailing slash. -/
def rstripSlashChars (cs : List Char) : List Char :=
  ((cs.reverse).dropWhile (fun c => decide (c = '/'))).reverse

/-- base_url.rstrip applied in the HippoClient constructor (client.py
line 20): all trailing slash characters are stripped. -/
def rstripSlash (s : String) : String :=
  ⟨rstripSlashChars s.data⟩

/-- The client state kept by HippoClient: the normalized base url
(client.py lines 19-21; the requests session carries no url state). -/
structure HippoClient where
  baseUrl : String
deriving DecidableEq

/-- The HippoClient constructor (client.py line 20). -/
def mkClient (base_url : String) : HippoClient :=
  ⟨rstripSlash base_url⟩

/-- The request url built by every HippoClient operation: the stored
base url followed by the operation path (client.py, every
self.session call uses the base_url followed by a path). -/
def requestUrl (c : HippoClient) (opPath : String) : String :=
  c.baseUrl ++ opPath

deriving instance DecidableEq for Except

/-- A concrete memory used to instantiate the theorems below on
closed inputs. -/
def memW : Memory :=
  ⟨0, "/p/a.jpg", "/p", Kind.image, 3, 4, 5, "", ["fav"]⟩

/-- A concrete catalog holding memW, used to instantiate the theorems
below on closed inputs. -/
def catW : Catalog :=
  ⟨[memW], [("fav", 1)], ["/p"]⟩

/-- Is the result a success? -/
def exOk {ε α : Type} : Except ε α → Bool
  | .ok _ => true
  | .error _ => false

/-- The catalog catW after the fav tag is removed from memory 0: the
tag set is empty and the tag record, whose count reached zero, is
deleted. -/
def catWEmpty : Catalog :=
  ⟨[⟨0, "/p/a.jpg", "/p", Kind.image, 3, 4, 5, "", []⟩], [], ["/p"]⟩

theorem bmem_iff {α : Type} [DecidableEq α] (a : α) (l : List α) :
    bmem a l = true ↔ a ∈ l := by
  simp only [bmem, List.any_eq_true, decide_eq_true_eq]
  exact ⟨fun ⟨x, hx, he⟩ => he ▸ hx, fun h => ⟨a, h, rfl⟩⟩

theorem bmem_eq_false_iff {α : Type} [DecidableEq α] (a : α) (l : List α) :
    bmem a l = false ↔ a ∉ l := by
  rw [← Bool.not_eq_true, not_iff_not]
  exact bmem_iff a l

theorem length_insertLe {α : Type} (le : α → α → Bool) (a : α) (l : List α) :
    (insertLe le a l).length = l.length + 1 := by
  induction l with
  | nil => rfl
  | cons b bs ih =>
    by_cases h : le a b = true
    · simp [insertLe, h]
    · simp [insertLe, h, ih]

theorem length_sortByLe {α : Type} (le : α → α → Bool) (l : List α) :
    (sortByLe le l).length = l.length := by
  induction l with
  | nil => rfl
  | cons a as ih => simp [sortByLe, length_insertLe, ih]

theorem mem_insertLe {α : Type} (le : α → α → Bool) (a x : α) (l : List α) :
    x ∈ insertLe le a l ↔ x = a ∨ x ∈ l := by
  induction l with
  | nil => simp [insertLe]
  | cons b bs ih =>
    by_cases h : le a b = true
    · simp [insertLe, h]
    · simp [insertLe, h, ih]
      tauto

theorem mem_sortByLe {α : Type} (le : α → α → Bool) (x : α) (l : List α) :
    x ∈ sortByLe le l ↔ x ∈ l := by
  induction l with
  | nil => simp [sortByLe]
  | cons a as ih =>
    simp [sortByLe, mem_insertLe, ih]

theorem mem_page_mem_matchSet (q : Query) (idx : List IndexEntry) (e : IndexEntry)
    (h : e ∈ (runQuery q idx).page) : e ∈ matchSet q idx := by
  have h1 : e ∈ sortByLe (cmpLe q) (matchSet q idx) := by
    have := List.take_subset q.limit ((sortByLe (cmpLe q) (matchSet q idx)).drop q.offset)
    have h2 := this h
    exact List.drop_subset q.offset _ h2
  exact (mem_sortByLe (cmpLe q) e _).mp h1

theorem tagsMatch_iff (tags : List String) (e : IndexEntry) :
    tagsMatch tags e = true ↔
      (∀ t ∈ includesOf tags, t ∈ e.tags) ∧ (∀ t ∈ excludesOf tags, t ∉ e.tags) := by
  simp only [tagsMatch, Bool.and_eq_true, List.all_eq_true, Bool.not_eq_true']
  constructor
  · rintro ⟨h1, h2⟩
    exact ⟨fun t ht => (bmem_iff t e.tags).mp (h1 t ht),
           fun t ht => (bmem_eq_false_iff t e.tags).mp (h2 t ht)⟩
  · rintro ⟨h1, h2⟩
    exact ⟨fun t ht => (bmem_iff t e.tags).mpr (h1 t ht),
           fun t ht => (bmem_eq_false_iff t e.tags).mpr (h2 t ht)⟩

/-- C3: for every query the returned totalCount equals the number of
memories matching the text, tag and kind filters before offset and
limit are applied, and is therefore at least the length of the
returned page. -/
theorem C3_total_count (q : Query) (idx : List IndexEntry) :
    (runQuery q idx).totalCount = (matchSet q idx).length ∧
    (runQuery q idx).page.length ≤ (runQuery q idx).totalCount := by
  constructor
  · rfl
  · show ((((sortByLe (cmpLe q) (matchSet q idx))).drop q.offset).take q.limit).length ≤ _
    calc ((((sortByLe (cmpLe q) (matchSet q idx))).drop q.offset).take q.limit).length
        ≤ (((sortByLe (cmpLe q) (matchSet q idx))).drop q.offset).length :=
          List.length_take_le' _ _
      _ ≤ ((sortByLe (cmpLe q) (matchSet q idx))).length := by
          rw [List.length_drop]; omega
      _ = (matchSet q idx).length := length_sortByLe _ _

/-- C2: a search with tag filter [a, -b] matches exactly the indexed
memories whose tag set contains a and does not contain b, and in
general every returned result carries all inclusion tags and none of
the exclusion tags of the filter (conjunctive semantics). -/
theorem C2_tag_filter :
    (∀ (idx : List IndexEntry) (e : IndexEntry) (s : SortMode) (l o : Nat),
       e ∈ matchSet ⟨none, ["a", "-b"], none, s, l, o⟩ idx ↔
         e ∈ idx ∧ "a" ∈ e.tags ∧ "b" ∉ e.tags) ∧
    (∀ (q : Query) (idx : List IndexEntry) (e : IndexEntry),
       e ∈ (runQuery q idx).page →
         (∀ t ∈ includesOf q.tags, t ∈ e.tags) ∧ (∀ t ∈ excludesOf q.tags, t ∉ e.tags)) := by
  constructor
  · intro idx e s l o
    have hinc : includesOf ["a", "-b"] = ["a"] := by decide
    have hexc : excludesOf ["a", "-b"] = ["b"] := by decide
    constructor
    · intro h
      rw [matchSet, List.mem_filter] at h
      obtain ⟨h1, h2⟩ := h
      simp only [entryMatches, Bool.and_eq_true] at h2
      have ht := (tagsMatch_iff _ e).mp h2.1.2
      rw [hinc, hexc] at ht
      exact ⟨h1, ht.1 "a" (by simp), ht.2 "b" (by simp)⟩
    · rintro ⟨h1, h2, h3⟩
      rw [matchSet, List.mem_filter]
      refine ⟨h1, ?_⟩
      simp only [entryMatches, Bool.and_eq_true]
      refine ⟨⟨rfl, ?_⟩, rfl⟩
      rw [tagsMatch_iff, hinc, hexc]
      exact ⟨by simpa using h2, by simpa using h3⟩
  · intro q idx e h
    have hm := mem_page_mem_matchSet q idx e h
    simp only [matchSet, List.mem_filter, entryMatches, Bool.and_eq_true] at hm
    exact (tagsMatch_iff q.tags e).mp hm.2.1.2

/-- C8: an absent or empty text filter matches every indexed memory,
while a nonempty text query matches exactly the memories some of whose
indexed tokens contain the query case-insensitively. -/
theorem C8_text_filter (idx : List IndexEntry) (e : IndexEntry) (s : SortMode) (l o : Nat) :
    (e ∈ matchSet ⟨none, [], none, s, l, o⟩ idx ↔ e ∈ idx) ∧
    (e ∈ matchSet ⟨some "", [], none, s, l, o⟩ idx ↔ e ∈ idx) ∧
    (∀ q : String, q.isEmpty = false →
       (e ∈ matchSet ⟨some q, [], none, s, l, o⟩ idx ↔
         e ∈ idx ∧ ∃ tok ∈ e.tokens, tokenMatch q tok = true)) := by
  refine ⟨?_, ?_, ?_⟩
  · simp [matchSet, List.mem_filter, entryMatches, textMatches, kindMatches, tagsMatch,
      includesOf, excludesOf]
  · have he : ("" : String).isEmpty = true := by decide
    simp [matchSet, List.mem_filter, entryMatches, textMatches, kindMatches, tagsMatch,
      includesOf, excludesOf, he]
  · intro q hq
    simp [matchSet, List.mem_filter, entryMatches, textMatches, kindMatches, tagsMatch,
      includesOf, excludesOf, hq, List.any_eq_true]

/-- C8 witness: a concrete nonempty query matching a concrete entry. -/
theorem C8_text_filter_witness :
    (⟨1, ["photos", "cat.jpg"], [], Kind.image, 4, 9, "cat.jpg"⟩ : IndexEntry) ∈
        matchSet ⟨some "CAT", [], none, SortMode.relevance, 10, 0⟩
          [⟨1, ["photos", "cat.jpg"], [], Kind.image, 4, 9, "cat.jpg"⟩] ↔
      (⟨1, ["photos", "cat.jpg"], [], Kind.image, 4, 9, "cat.jpg"⟩ : IndexEntry) ∈
          [(⟨1, ["photos", "cat.jpg"], [], Kind.image, 4, 9, "cat.jpg"⟩ : IndexEntry)] ∧
        ∃ tok ∈ (["photos", "cat.jpg"] : List String), tokenMatch "CAT" tok = true :=
  (C8_text_filter [⟨1, ["photos", "cat.jpg"], [], Kind.image, 4, 9, "cat.jpg"⟩]
    ⟨1, ["photos", "cat.jpg"], [], Kind.image, 4, 9, "cat.jpg"⟩
    SortMode.relevance 10 0).2.2 "CAT" (by decide)

/-- C2 witness: the theorem applied at a concrete index and entry. -/
theorem C2_tag_filter_witness :
    ("a" ∈ (["a"] : List String) ∧ "b" ∉ (["a"] : List String)) ∧
    (∀ t ∈ includesOf ["a"], t ∈ (⟨1, ["x"], ["a"], Kind.image, 0, 0, "x"⟩ : IndexEntry).tags) :=
  ⟨((C2_tag_filter.1 [⟨1, ["x"], ["a"], Kind.image, 0, 0, "x"⟩]
      ⟨1, ["x"], ["a"], Kind.image, 0, 0, "x"⟩ SortMode.relevance 10 0).mp (by decide)).2,
   (C2_tag_filter.2 ⟨none, ["a"], none, SortMode.relevance, 10, 0⟩
      [⟨1, ["x"], ["a"], Kind.image, 0, 0, "x"⟩]
      ⟨1, ["x"], ["a"], Kind.image, 0, 0, "x"⟩ (by decide)).1⟩

theorem any_memId_map (ms : List Memory) (i : Nat) :
    (ms.map entryOf).any (fun x => decide (x.memId = i)) =
      ms.any (fun x => decide (x.id = i)) := by
  induction ms with
  | nil => rfl
  | cons m rest ih => simp only [List.map_cons, List.any_cons, ih]; rfl

theorem rebuild_upsert (ms : List Memory) (m : Memory) :
    upsertEntry (rebuild ms) (entryOf m) = rebuild (upsertMem ms m) := by
  unfold upsertEntry upsertMem rebuild
  rw [show (entryOf m).memId = m.id from rfl, any_memId_map]
  by_cases h : ms.any (fun x => decide (x.id = m.id)) = true
  · rw [if_pos h, if_pos h, List.map_map, List.map_map]
    apply List.map_congr_left
    intro x _
    by_cases hx : x.id = m.id
    · simp [Function.comp_apply, show (entryOf x).memId = x.id from rfl, hx]
    · simp only [Function.comp_apply, show (entryOf x).memId = x.id from rfl,
        if_neg hx]
  · rw [if_neg h, if_neg h, List.map_append]
    rfl

theorem rebuild_remove (ms : List Memory) (i : Nat) :
    (rebuild ms).filter (fun e => !decide (e.memId = i)) =
      rebuild (ms.filter (fun m => !decide (m.id = i))) := by
  unfold rebuild
  rw [List.filter_map]
  rfl

theorem rebuild_tagDelta (ms : List Memory) (i : Nat) (ts : List String) :
    (rebuild ms).map (fun e => if e.memId = i then { e with tags := ts } else e) =
      rebuild (ms.map (fun m => if m.id = i then { m with tags := ts } else m)) := by
  unfold rebuild
  rw [List.map_map, List.map_map]
  apply List.map_congr_left
  intro x _
  by_cases hx : x.id = i
  · simp only [Function.comp_apply, show (entryOf x).memId = x.id from rfl, hx, if_true,
      eq_self_iff_true]
    rfl
  · simp only [Function.comp_apply, show (entryOf x).memId = x.id from rfl, if_neg hx]

theorem applyOp_inv (s : EngineState) (op : EngOp)
    (h : s.index = rebuild s.memories) :
    (applyOp s op).index = rebuild (applyOp s op).memories := by
  cases op with
  | upsert m => simp only [applyOp, h, rebuild_upsert]
  | remove i => simp only [applyOp, h, rebuild_remove]
  | tagDelta i ts => simp only [applyOp, h, rebuild_tagDelta]

theorem applyOps_inv (ops : List EngOp) (s : EngineState)
    (h : s.index = rebuild s.memories) :
    (applyOps ops s).index = rebuild (applyOps ops s).memories := by
  induction ops generalizing s with
  | nil => exact h
  | cons op rest ih => exact ih (applyOp s op) (applyOp_inv s op h)

/-- C1: for the engine state reached by any sequence of memory
upserts, removals and tag deltas, rebuilding the index from scratch
from the stored memories yields, for every query, results identical to
the incrementally maintained index. -/
theorem C1_rebuild_equiv (ops : List EngOp) (q : Query) :
    runQuery q (rebuild (applyOps ops initState).memories) =
      runQuery q (applyOps ops initState).index := by
  rw [applyOps_inv ops initState rfl]

theorem find?_map_pres {α : Type} (g : α → α) (p : α → Bool) (l : List α)
    (h : ∀ x, p (g x) = p x) :
    (l.map g).find? p = (l.find? p).map g := by
  induction l with
  | nil => rfl
  | cons a as ih =>
    by_cases hp : p a = true
    · rw [List.map_cons, List.find?_cons_of_pos _ (by rw [h a]; exact hp),
        List.find?_cons_of_pos _ hp]
      rfl
    · rw [List.map_cons, List.find?_cons_of_neg _ (by rw [h a]; simpa using hp),
        List.find?_cons_of_neg _ (by simpa using hp), ih]

theorem findMem_updateMemTags (cat : Catalog) (id : Nat)
    (f : List String → List String) (m : Memory) (h : findMem cat id = some m) :
    findMem (updateMemTags cat id f) id = some { m with tags := f m.tags } := by
  have hid : m.id = id := by simpa using List.find?_some h
  show (cat.memories.map _).find? _ = _
  rw [find?_map_pres _ _ _ (fun x => by by_cases hx : x.id = id <;> simp [hx])]
  rw [show cat.memories.find? (fun x => decide (x.id = id)) = some m from h]
  simp [hid]

theorem memTags_of_findMem (cat : Catalog) (id : Nat) (m : Memory)
    (h : findMem cat id = some m) : memTags cat id = m.tags := by
  unfold memTags
  rw [h]
  rfl

theorem bmem_append_self (a : String) (l : List String) :
    bmem a (l ++ [a]) = true := by
  rw [bmem_iff]
  simp

theorem applyTagOp_noop (cat : Catalog) (id : Nat) (op : TagOp)
    (h : isEffective cat id op = false) : applyTagOp cat id op = cat := by
  cases op with
  | add t =>
    cases hf : findMem cat id with
    | none => simp [applyTagOp, addTag, hf]
    | some m =>
      have hb : bmem (normalizeTag t) m.tags = true := by
        unfold isEffective memTags at h
        rw [hf] at h
        simpa using h
      simp [applyTagOp, addTag, hf, hb]
  | rem t =>
    cases hf : findMem cat id with
    | none => simp [applyTagOp, removeTag, hf]
    | some m =>
      have hb : bmem (normalizeTag t) m.tags = false := by
        unfold isEffective memTags at h
        rw [hf] at h
        simpa using h
      simp [applyTagOp, removeTag, hf, hb]

theorem replay_netOps (cat : Catalog) (id : Nat) (ops : List TagOp) :
    replayTagOps cat id (netOps cat id ops) = replayTagOps cat id ops := by
  induction ops generalizing cat with
  | nil => rfl
  | cons op rest ih =>
    by_cases h : isEffective cat id op = true
    · rw [netOps, if_pos h]
      show replayTagOps (applyTagOp cat id op) id (netOps (applyTagOp cat id op) id rest) =
        replayTagOps (applyTagOp cat id op) id rest
      exact ih (applyTagOp cat id op)
    · have hne : isEffective cat id op = false := by simpa using h
      rw [netOps, if_neg h, ih cat]
      show replayTagOps cat id rest = replayTagOps (applyTagOp cat id op) id rest
      rw [applyTagOp_noop cat id op hne]

/-- C4: replaying only the net adds and removes of a tag-mutation
sequence produces the same catalog (hence the same final tag set) as
replaying the whole sequence, and a second add of an already-present
tag is idempotent: it returns the catalog unchanged, so the global
count is not incremented a second time. -/
theorem C4_net_replay :
    (∀ (cat : Catalog) (id : Nat) (ops : List TagOp),
       replayTagOps cat id (netOps cat id ops) = replayTagOps cat id ops) ∧
    (∀ (cat c : Catalog) (id : Nat) (t : String),
       addTag cat id t = .ok c → addTag c id t = .ok c) := by
  refine ⟨replay_netOps, ?_⟩
  intro cat c id t h
  cases hf : findMem cat id with
  | none => simp [addTag, hf] at h
  | some m =>
    by_cases hb : bmem (normalizeTag t) m.tags = true
    · simp [addTag, hf, hb] at h
      subst h
      simp [addTag, hf, hb]
    · simp [addTag, hf, hb] at h
      have hf2 : findMem c id = some { m with tags := m.tags ++ [normalizeTag t] } := by
        rw [← h]
        exact findMem_updateMemTags cat id (fun ts => ts ++ [normalizeTag t]) m hf
      simp [addTag, hf2, bmem_append_self]

/-- C4 witness: a second add of an already-present tag at a concrete
catalog returns the catalog unchanged. -/
theorem C4_net_replay_witness :
    addTag catW 0 "fav" = Except.ok catW :=
  C4_net_replay.2 catW catW 0 "fav" (by decide)

theorem lookupCount_decr_not_mem (tc : List (String × Nat)) (t : String)
    (h : t ∉ tc.map Prod.fst) : lookupCount (decrCount tc t) t = none := by
  induction tc with
  | nil => rfl
  | cons p rest ih =>
    have hne : ¬ p.1 = t := by
      intro he
      exact h (by simp [← he])
    have hr : t ∉ rest.map Prod.fst := fun hm => h (by simp [hm])
    simp only [decrCount, List.filterMap_cons, if_neg hne]
    unfold lookupCount
    rw [List.find?_cons_of_neg _ (by simpa using hne)]
    exact ih hr

theorem lookupCount_decrCount (tc : List (String × Nat)) (t : String) (n : Nat)
    (hnd : (tc.map Prod.fst).Nodup) (h : lookupCount tc t = some n) :
    lookupCount (decrCount tc t) t = if n ≤ 1 then none else some (n - 1) := by
  induction tc with
  | nil => simp [lookupCount] at h
  | cons p rest ih =>
    rw [List.map_cons, List.nodup_cons] at hnd
    by_cases hp : p.1 = t
    · have hn : p.2 = n := by
        unfold lookupCount at h
        rw [List.find?_cons_of_pos _ (by simpa using hp)] at h
        simpa using h
      have hniq : t ∉ rest.map Prod.fst := hp ▸ hnd.1
      by_cases hle : p.2 ≤ 1
      · rw [if_pos (hn ▸ hle)]
        simp only [decrCount, List.filterMap_cons, if_pos hp, if_pos hle]
        exact lookupCount_decr_not_mem rest t hniq
      · rw [if_neg (show ¬ n ≤ 1 by omega)]
        simp only [decrCount, List.filterMap_cons, if_pos hp, if_neg hle]
        unfold lookupCount
        rw [List.find?_cons_of_pos _ (by simpa using hp)]
        simp [hn]
    · have hr : lookupCount rest t = some n := by
        unfold lookupCount at h
        rw [List.find?_cons_of_neg _ (by simpa using hp)] at h
        exact h
      rw [← ih hnd.2 hr]
      simp only [decrCount, List.filterMap_cons, if_neg hp]
      unfold lookupCount
      rw [List.find?_cons_of_neg _ (by simpa using hp)]

/-- C5: remove_tag fails NotFound exactly when the memory does not
exist, fails the distinct error TagNotPresent exactly when the memory
exists but does not carry the tag, and otherwise succeeds, removing
the tag from the memory, decrementing the global count of the tag and
deleting the count record when it reaches zero. -/
theorem C5_remove_tag (cat : Catalog) (id : Nat) (t : String) :
    (removeTag cat id t = .error .notFound ↔ findMem cat id = none) ∧
    (∀ m, findMem cat id = some m →
       (removeTag cat id t = .error .tagNotPresent ↔ normalizeTag t ∉ m.tags)) ∧
    (∀ m, findMem cat id = some m → normalizeTag t ∈ m.tags →
       exOk (removeTag cat id t) = true ∧
       ∀ c, removeTag cat id t = .ok c →
         memTags c id = m.tags.filter (fun x => !decide (x = normalizeTag t)) ∧
         (∀ n, (cat.tagCounts.map Prod.fst).Nodup →
            lookupCount cat.tagCounts (normalizeTag t) = some n →
            lookupCount c.tagCounts (normalizeTag t) =
              if n ≤ 1 then none else some (n - 1))) := by
  refine ⟨?_, ?_, ?_⟩
  · cases hf : findMem cat id with
    | none => simp [removeTag, hf]
    | some m =>
      by_cases hb : bmem (normalizeTag t) m.tags = true
      · simp [removeTag, hf, hb]
      · simp [removeTag, hf, hb]
  · intro m hm
    by_cases hb : bmem (normalizeTag t) m.tags = true
    · simp [removeTag, hm, hb, (bmem_iff _ _).mp hb]
    · have := (bmem_eq_false_iff (normalizeTag t) m.tags).mp (by simpa using hb)
      simp [removeTag, hm, hb, this]
  · intro m hm hmem
    have hb : bmem (normalizeTag t) m.tags = true := (bmem_iff _ _).mpr hmem
    have hrt : removeTag cat id t =
        .ok { updateMemTags cat id (fun ts => ts.filter (fun x => !decide (x = normalizeTag t))) with
              tagCounts := decrCount cat.tagCounts (normalizeTag t) } := by
      simp [removeTag, hm, hb]
    refine ⟨by rw [hrt]; rfl, ?_⟩
    intro c hc
    rw [hrt] at hc
    injection hc with hc
    constructor
    · rw [← hc]
      have hf2 := findMem_updateMemTags cat id
        (fun ts => ts.filter (fun x => !decide (x = normalizeTag t))) m hm
      show ((findMem _ id).map Memory.tags).getD [] = _
      rw [show findMem { updateMemTags cat id
            (fun ts => ts.filter (fun x => !decide (x = normalizeTag t))) with
            tagCounts := decrCount cat.tagCounts (normalizeTag t) } id =
          some { m with tags := m.tags.filter (fun x => !decide (x = normalizeTag t)) } from hf2]
      rfl
    · intro n hnd hl
      rw [← hc]
      exact lookupCount_decrCount cat.tagCounts (normalizeTag t) n hnd hl

/-- C5 witness: at a concrete catalog, removing the one tag of memory
0 succeeds, empties the tag set of the memory, and deletes the tag
record whose count reached zero. -/
theorem C5_remove_tag_witness :
    exOk (removeTag catW 0 "fav") = true ∧
    memTags catWEmpty 0 = [] ∧
    lookupCount catWEmpty.tagCounts (normalizeTag "fav") = none :=
  ⟨((C5_remove_tag catW 0 "fav").2.2 memW (by decide) (by decide)).1,
   ((((C5_remove_tag catW 0 "fav").2.2 memW (by decide) (by decide)).2
       catWEmpty (by decide)).1).trans (by decide),
   (((((C5_remove_tag catW 0 "fav").2.2 memW (by decide) (by decide)).2
       catWEmpty (by decide)).2) 1 (by decide) (by decide)).trans (by decide)⟩

theorem catalog_ext (a b : Catalog) (h1 : a.memories = b.memories)
    (h2 : a.tagCounts = b.tagCounts) (h3 : a.sources = b.sources) : a = b := by
  cases a
  cases b
  simp_all

theorem applyCascade_removeMems (ids : List Nat) (cat : Catalog) :
    applyCascade cat (ids.map CascadeStep.removeMem) =
      { cat with memories := cat.memories.filter (fun m => !bmem m.id ids) } := by
  induction ids generalizing cat with
  | nil => simp [applyCascade, bmem]
  | cons i ids ih =>
    show applyCascade (applyStep cat (CascadeStep.removeMem i)) (ids.map CascadeStep.removeMem) = _
    rw [show applyStep cat (CascadeStep.removeMem i) = removeMemById cat i from rfl, ih]
    unfold removeMemById
    congr 1
    rw [List.filter_filter]
    apply List.filter_congr
    intro m _
    by_cases h1 : m.id = i
    · simp [bmem, List.any_cons, h1]
    · have h2 : ¬ i = m.id := fun hh => h1 hh.symm
      simp [bmem, List.any_cons, h1, h2]

theorem removeSource_ok (cat : Catalog) (path : String) (df : Bool)
    (h : bmem path cat.sources = true) :
    removeSource cat path df =
      .ok ⟨cat.memories.filter (fun m => !bmem m.id (ownedIds cat path)),
           cat.tagCounts,
           cat.sources.filter (fun s => !decide (s = path))⟩ := by
  unfold removeSource
  rw [if_pos h]
  congr 1
  unfold cascadeSteps applyCascade
  rw [List.foldl_append]
  show applyStep (applyCascade cat ((ownedIds cat path).map CascadeStep.removeMem))
    (CascadeStep.removeSrc path) = _
  rw [applyCascade_removeMems (ownedIds cat path) cat]
  rfl

theorem mem_ownedIds (cat : Catalog) (path : String) (m : Memory)
    (hm : m ∈ cat.memories) (hs : m.source = path) : m.id ∈ ownedIds cat path := by
  unfold ownedIds
  exact List.mem_map_of_mem Memory.id (List.mem_filter.mpr ⟨hm, by simp [hs]⟩)

theorem ownedIds_split (cat : Catalog) (path : String) (ids1 ids2 : List Nat)
    (hdec : ownedIds cat path = ids1 ++ ids2) (j : Nat) :
    (j ∉ ownedIds { cat with
        memories := cat.memories.filter (fun m => !bmem m.id ids1) } path ∧ j ∉ ids1) ↔
      j ∉ ids1 ++ ids2 := by
  constructor
  · rintro ⟨hP, h1⟩ hin
    rcases List.mem_append.mp hin with hin1 | hin2
    · exact h1 hin1
    · have hofull : j ∈ ownedIds cat path := hdec ▸ List.mem_append_right ids1 hin2
      unfold ownedIds at hofull
      rcases List.mem_map.mp hofull with ⟨m, hmf, hmid⟩
      rcases List.mem_filter.mp hmf with ⟨hmem, hsrc⟩
      apply hP
      have hmp : m ∈ ({ cat with
          memories := cat.memories.filter (fun m => !bmem m.id ids1) } : Catalog).memories :=
        List.mem_filter.mpr ⟨hmem, by
          rw [Bool.not_eq_true', bmem_eq_false_iff, hmid]
          exact h1⟩
      exact hmid ▸ mem_ownedIds _ path m hmp (by simpa using hsrc)
  · intro h
    refine ⟨?_, fun h1 => h (List.mem_append_left ids2 h1)⟩
    intro hP
    unfold ownedIds at hP
    rcases List.mem_map.mp hP with ⟨m, hmf, hmid⟩
    rcases List.mem_filter.mp hmf with ⟨hmem, hsrc⟩
    rcases List.mem_filter.mp hmem with ⟨hmem2, _⟩
    apply h
    rw [← hdec]
    exact hmid ▸ mem_ownedIds cat path m hmem2 (by simpa using hsrc)

/-- C6: remove_source fails NotFound exactly when the path is not a
registered source; otherwise it succeeds, removing every memory owned
by that source (a search over the rebuilt index returns no entry of
any removed memory), removing the Source record last — so that after
any interrupted prefix of the memory-removal cascade the source is
still registered and re-invoking remove_source yields the same final
catalog. -/
theorem C6_remove_source (cat : Catalog) (path : String) (df : Bool) :
    (removeSource cat path df = .error .notFound ↔ path ∉ cat.sources) ∧
    (path ∈ cat.sources →
       exOk (removeSource cat path df) = true ∧
       ∀ c, removeSource cat path df = .ok c →
         (∀ m ∈ c.memories, m.source ≠ path) ∧
         (∀ q e, e ∈ (runQuery q (rebuild c.memories)).page → e.memId ∉ ownedIds cat path) ∧
         path ∉ c.sources ∧
         (∀ ids1 ids2, ownedIds cat path = ids1 ++ ids2 →
            path ∈ (applyCascade cat (ids1.map CascadeStep.removeMem)).sources ∧
            removeSource (applyCascade cat (ids1.map CascadeStep.removeMem)) path df = .ok c)) := by
  constructor
  · by_cases h : bmem path cat.sources = true
    · rw [removeSource_ok cat path df h]
      simp [(bmem_iff path cat.sources).mp h]
    · unfold removeSource
      rw [if_neg h]
      simp [(bmem_eq_false_iff path cat.sources).mp (by simpa using h)]
  · intro hmem
    have hb : bmem path cat.sources = true := (bmem_iff _ _).mpr hmem
    have hok := removeSource_ok cat path df hb
    refine ⟨by rw [hok]; rfl, ?_⟩
    intro c hc
    rw [hok] at hc
    injection hc with hc
    refine ⟨?_, ?_, ?_, ?_⟩
    · intro m hm hsrc
      rw [← hc] at hm
      rcases List.mem_filter.mp hm with ⟨hmem2, hkeep⟩
      rw [Bool.not_eq_true', bmem_eq_false_iff] at hkeep
      exact hkeep (mem_ownedIds cat path m hmem2 hsrc)
    · intro q e he
      have h1 := mem_page_mem_matchSet q _ e he
      have h2 : e ∈ rebuild c.memories := (List.mem_filter.mp h1).1
      unfold rebuild at h2
      rcases List.mem_map.mp h2 with ⟨m, hm, hme⟩
      rw [← hc] at hm
      rcases List.mem_filter.mp hm with ⟨_, hkeep⟩
      rw [Bool.not_eq_true', bmem_eq_false_iff] at hkeep
      rw [← hme]
      exact hkeep
    · intro hin
      rw [← hc] at hin
      rcases List.mem_filter.mp hin with ⟨_, hkeep⟩
      simp at hkeep
    · intro ids1 ids2 hdec
      rw [applyCascade_removeMems ids1 cat]
      refine ⟨hmem, ?_⟩
      have hb2 : bmem path ({ cat with
          memories := cat.memories.filter (fun m => !bmem m.id ids1) } : Catalog).sources = true := hb
      rw [removeSource_ok _ path df hb2, ← hc]
      refine congrArg Except.ok (catalog_ext _ _ ?_ rfl rfl)
      show (cat.memories.filter (fun m => !bmem m.id ids1)).filter _ =
        cat.memories.filter (fun m => !bmem m.id (ownedIds cat path))
      rw [List.filter_filter]
      apply List.filter_congr
      intro m _
      rw [Bool.eq_iff_iff]
      simp only [Bool.and_eq_true, Bool.not_eq_true', bmem_eq_false_iff]
      rw [hdec]
      exact ownedIds_split cat path ids1 ids2 hdec m.id

/-- C6 witness: removing the registered source of catW succeeds and
the instantiated guarantees hold at the concrete result. -/
theorem C6_remove_source_witness :
    exOk (removeSource catW "/p" false) = true ∧
    (∀ m ∈ (⟨[], [("fav", 1)], []⟩ : Catalog).memories, m.source ≠ "/p") :=
  ⟨((C6_remove_source catW "/p" false).2 (by decide)).1,
   (((C6_remove_source catW "/p" false).2 (by decide)).2 ⟨[], [("fav", 1)], []⟩ (by decide)).1⟩

theorem find?_filter_some {α : Type} (p q : α → Bool) (l : List α) (m : α)
    (h : l.find? p = some m) (hq : q m = true) :
    (l.filter q).find? p = some m := by
  induction l with
  | nil => simp at h
  | cons a as ih =>
    by_cases hp : p a = true
    · rw [List.find?_cons_of_pos _ hp] at h
      injection h with h
      subst h
      rw [List.filter_cons_of_pos hq, List.find?_cons_of_pos _ hp]
    · rw [List.find?_cons_of_neg _ (by simpa using hp)] at h
      by_cases hqa : q a = true
      · rw [List.filter_cons_of_pos hqa, List.find?_cons_of_neg _ (by simpa using hp)]
        exact ih h
      · rw [List.filter_cons_of_neg (by simpa using hqa)]
        exact ih h

/-- C7: re-ingesting an unchanged file is a no-op — the memory keeps
its id, tag set and indexedAt, and survives the scan of its source —
while the tombstone pass of a scan removes every memory of the scanned
source whose path is no longer among the discovered files: any
surviving memory of the source has its path on disk. -/
theorem C7_reingest :
    (∀ (cat : Catalog) (src : String) (now : Nat) (f : FileInfo) (m : Memory),
       findByPath cat f.path = some m → fsUnchanged m f = true →
         ingestFile cat src now f = cat ∧
         findByPath (scanSource cat src now [f]) f.path = some m) ∧
    (∀ (cat : Catalog) (src : String) (now : Nat) (files : List FileInfo) (m : Memory),
       m ∈ (scanSource cat src now files).memories → m.source = src →
         m.path ∈ files.map FileInfo.path) := by
  constructor
  · intro cat src now f m hf hu
    have h1 : ingestFile cat src now f = cat := by
      simp [ingestFile, hf, hu]
    refine ⟨h1, ?_⟩
    have hm : m.path = f.path := by simpa using List.find?_some hf
    have hscan : scanSource cat src now [f] =
        { cat with memories := cat.memories.filter (fun m =>
            !(decide (m.source = src) && !bmem m.path ([f].map FileInfo.path))) } := by
      unfold scanSource
      rw [show List.foldl (fun c f => ingestFile c src now f) cat [f] =
        ingestFile cat src now f from rfl, h1]
    rw [hscan]
    show (cat.memories.filter _).find? (fun x => decide (x.path = f.path)) = some m
    exact find?_filter_some _ _ _ m hf (by simp [bmem, hm])
  · intro cat src now files m hm hs
    simp only [scanSource] at hm
    rcases List.mem_filter.mp hm with ⟨_, hkeep⟩
    have hb : bmem m.path (files.map FileInfo.path) = true := by
      by_contra hbc
      have hb2 : bmem m.path (files.map FileInfo.path) = false := by simpa using hbc
      rw [hs] at hkeep
      simp [hb2] at hkeep
    exact (bmem_iff _ _).mp hb

/-- C7 witness: re-ingesting the unchanged file of catW leaves the
catalog unchanged and the memory survives the scan, and the surviving
memory has its path among the scanned files. -/
theorem C7_reingest_witness :
    (ingestFile catW "/p" 9 ⟨"/p/a.jpg", Kind.image, 3, 4⟩ = catW ∧
     findByPath (scanSource catW "/p" 9 [⟨"/p/a.jpg", Kind.image, 3, 4⟩]) "/p/a.jpg" =
       some memW) ∧
    memW.path ∈ ([⟨"/p/a.jpg", Kind.image, 3, 4⟩] : List FileInfo).map FileInfo.path :=
  ⟨C7_reingest.1 catW "/p" 9 ⟨"/p/a.jpg", Kind.image, 3, 4⟩ memW (by decide) (by decide),
   C7_reingest.2 catW "/p" 9 [⟨"/p/a.jpg", Kind.image, 3, 4⟩] memW (by decide) (by decide)⟩

/-- C9: the search request omits the q, tags and type parameters
exactly when the corresponding argument is falsy in Python (None, the
empty string, the empty list), so query set to the empty string and
query set to None build identical requests, and the parameters always
contain limit, offset and sort, with the Python defaults 50, 0 and
Relevance. -/
theorem C9_search_params (q : Option String) (t : Option (List String)) (k : Option String)
    (s : String) (l o : Int) :
    (bmem "q" ((searchParams q t k s l o).map Prod.fst) = pyTruthyStr q) ∧
    (bmem "tags" ((searchParams q t k s l o).map Prod.fst) = pyTruthyList t) ∧
    (bmem "type" ((searchParams q t k s l o).map Prod.fst) = pyTruthyStr k) ∧
    (searchParams (some "") t k s l o = searchParams none t k s l o) ∧
    ("limit" ∈ (searchParams q t k s l o).map Prod.fst ∧
     "offset" ∈ (searchParams q t k s l o).map Prod.fst ∧
     "sort" ∈ (searchParams q t k s l o).map Prod.fst) ∧
    searchParamsDefault = [("limit", "50"), ("offset", "0"), ("sort", "Relevance")] := by
  have h0 : pyTruthyStr (some "") = false := by decide
  have hnone : pyTruthyStr none = false := rfl
  refine ⟨?_, ?_, ?_, ?_, ⟨?_, ?_, ?_⟩, by decide⟩
  · cases hq : pyTruthyStr q <;> cases ht : pyTruthyList t <;> cases hk : pyTruthyStr k <;>
      simp [searchParams, hq, ht, hk, bmem]
  · cases hq : pyTruthyStr q <;> cases ht : pyTruthyList t <;> cases hk : pyTruthyStr k <;>
      simp [searchParams, hq, ht, hk, bmem]
  · cases hq : pyTruthyStr q <;> cases ht : pyTruthyList t <;> cases hk : pyTruthyStr k <;>
      simp [searchParams, hq, ht, hk, bmem]
  · simp [searchParams, h0, hnone]
  · cases hq : pyTruthyStr q <;> cases ht : pyTruthyList t <;> cases hk : pyTruthyStr k <;>
      simp [searchParams, hq, ht, hk]
  · cases hq : pyTruthyStr q <;> cases ht : pyTruthyList t <;> cases hk : pyTruthyStr k <;>
      simp [searchParams, hq, ht, hk]
  · cases hq : pyTruthyStr q <;> cases ht : pyTruthyList t <;> cases hk : pyTruthyStr k <;>
      simp [searchParams, hq, ht, hk]

theorem dropWhile_replicate_slash (n : Nat) (l : List Char) :
    (List.replicate n '/' ++ l).dropWhile (fun c => decide (c = '/')) =
      l.dropWhile (fun c => decide (c = '/')) := by
  induction n with
  | zero => rfl
  | succ n ih => simp [List.replicate_succ, List.dropWhile_cons, ih]

theorem rstripSlashChars_append (cs : List Char) (n : Nat) :
    rstripSlashChars (cs ++ List.replicate n '/') = rstripSlashChars cs := by
  unfold rstripSlashChars
  rw [List.reverse_append, List.reverse_replicate, dropWhile_replicate_slash]

/-- C10: the constructor strips every trailing slash from base_url, so
clients built from a base url and from the same base url with any
number of trailing slashes appended are identical and build identical
request urls for every operation. -/
theorem C10_base_url (base opPath : String) (n : Nat) :
    mkClient (base ++ ⟨List.replicate n '/'⟩) = mkClient base ∧
    requestUrl (mkClient (base ++ ⟨List.replicate n '/'⟩)) opPath =
      requestUrl (mkClient base) opPath := by
  have h : mkClient (base ++ ⟨List.replicate n '/'⟩) = mkClient base := by
    unfold mkClient rstripSlash
    rw [HippoClient.mk.injEq]
    apply congrArg String.mk
    rw [show (base ++ (⟨List.replicate n '/'⟩ : String)).data =
      base.data ++ List.replicate n '/' from String.data_append base _]
    exact rstripSlashChars_append base.data n
  exact ⟨h, by rw [h]⟩

end Hippo
